import Mathlib

/-!
Verification of `normalize_line_endings.py`: a shallow embedding of the
script's configuration sets, file-selection predicate, line-ending
normalizer (including its UTF-8 / latin-1 decode logic and UTF-8
re-encode), directory walker with excluded-directory pruning, and the
run counters of `main`, together with proofs of the specified
properties.

Python `str` values are modelled as `List Char` (sequences of Unicode
scalar values); `bytes` values as `List Nat` (each element a byte
value `< 256`).
-/

namespace NormalizeLineEndings

/-- The module-level constant `EXTENSIONS`: file extensions to process. -/
def EXTENSIONS : List (List Char) :=
  [".js".data, ".jsx".data, ".ts".data, ".tsx".data,
   ".py".data, ".sh".data, ".bash".data,
   ".json".data, ".jsonc".data,
   ".css".data, ".scss".data, ".sass".data, ".less".data,
   ".html".data, ".htm".data, ".xml".data, ".svg".data,
   ".md".data, ".markdown".data, ".txt".data,
   ".yml".data, ".yaml".data,
   ".env".data, ".gitignore".data, ".gitattributes".data,
   ".sql".data]

/-- The module-level constant `EXCLUDED_DIRS`: directory names to exclude. -/
def EXCLUDED_DIRS : List String :=
  ["node_modules", ".git", "dist", "build", "__pycache__",
   ".next", "out", "coverage", ".cache", "venv", "env"]

/-- The literal set `{'.env', '.gitignore', '.gitattributes'}` tested in
`should_process_file` for extensionless dotfiles. -/
def DOTFILE_NAMES : List (List Char) :=
  [".env".data, ".gitignore".data, ".gitattributes".data]

/-- `str.rfind(c)` of CPython restricted to a single character: the highest
index at which `c` occurs in `s`, or `-1` when `c` does not occur. -/
def rfind (s : List Char) (c : Char) : Int :=
  match s with
  | [] => -1
  | a :: rest =>
    let r := rfind rest c
    if r ≥ 0 then r + 1
    else if a = c then 0
    else -1

/-- `PurePath.suffix` of CPython's `pathlib`, as a function of the path's
final component `name`: `i = name.rfind('.')`; if `0 < i < len(name) - 1`
return `name[i:]`, else return the empty string. -/
def suffix (name : List Char) : List Char :=
  let i := rfind name '.'
  if 0 < i ∧ i < (name.length : Int) - 1 then name.drop i.toNat else []

/-- `should_process_file` from the script, as a function of the path's
final component `name` (both `.suffix` and `.name` and `.startswith` depend
only on the final component). -/
def should_process_file (name : List Char) : Bool :=
  if ¬ ((suffix name).map Char.toLower ∈ EXTENSIONS) then
    if suffix name = [] ∧ ['.'].isPrefixOf name then
      decide (name ∈ DOTFILE_NAMES)
    else
      false
  else
    true

/-- CPython `str.replace(pat, rep)` for a pattern `pat ≠ []`: scan left to
right, substituting each non-overlapping occurrence of `pat` by `rep`.
(The script only calls it with the nonempty patterns `'\r\n'` and `'\r'`.) -/
def strReplace (pat rep : List Char) : List Char → List Char
  | [] => []
  | c :: rest =>
    if pat ≠ [] ∧ pat.isPrefixOf (c :: rest) then
      rep ++ strReplace pat rep (rest.drop (pat.length - 1))
    else
      c :: strReplace pat rep rest
termination_by s => s.length
decreasing_by
  · simp only [List.length_drop, List.length_cons]; omega
  · simp only [List.length_cons]; omega

/-- Line 63 of the script:
`text.replace('\r\n', '\n').replace('\r', '\n')`. -/
def normalizeText (s : List Char) : List Char :=
  strReplace ['\r'] ['\n'] (strReplace ['\r', '\n'] ['\n'] s)

/-- UTF-8 encoding of a single Unicode scalar value (as produced by
CPython's `str.encode('utf-8')` for one character). -/
def utf8EncodeChar (c : Char) : List Nat :=
  let n := c.toNat
  if n < 0x80 then [n]
  else if n < 0x800 then [0xC0 + n / 64, 0x80 + n % 64]
  else if n < 0x10000 then
    [0xE0 + n / 4096, 0x80 + (n / 64) % 64, 0x80 + n % 64]
  else
    [0xF0 + n / 262144, 0x80 + (n / 4096) % 64, 0x80 + (n / 64) % 64,
     0x80 + n % 64]

/-- `text.encode('utf-8')` from line 68 of the script. -/
def utf8Encode (s : List Char) : List Nat := s.flatMap utf8EncodeChar

/-- Whether a byte is a UTF-8 continuation byte (`0x80..0xBF`). -/
def isCont (b : Nat) : Bool := 0x80 ≤ b && b < 0xC0

mutual
/-- Strict UTF-8 decoding, `content.decode('utf-8')` from line 51 of the
script: `none` models `UnicodeDecodeError`. Rejects truncated sequences,
bad lead or continuation bytes, overlong encodings, surrogates, and code
points above `0x10FFFF`, exactly as CPython's strict UTF-8 codec does. -/
def utf8Decode : List Nat → Option (List Char)
  | [] => some []
  | b :: rest =>
    if b < 0x80 then (utf8Decode rest).map (Char.ofNat b :: ·)
    else if b < 0xC2 then none
    else if b < 0xE0 then utf8DecodeTwo b rest
    else if b < 0xF0 then utf8DecodeThree b rest
    else if b < 0xF5 then utf8DecodeFour b rest
    else none

/-- Continue decoding a two-byte UTF-8 sequence whose lead byte `b` is in
`0xC2..0xDF` (two-byte sequences with these lead bytes are never overlong). -/
def utf8DecodeTwo (b : Nat) : List Nat → Option (List Char)
  | b1 :: rest =>
    if isCont b1 then
      (utf8Decode rest).map (Char.ofNat ((b - 0xC0) * 64 + (b1 - 0x80)) :: ·)
    else none
  | [] => none

/-- Continue decoding a three-byte UTF-8 sequence with lead byte `b` in
`0xE0..0xEF`, rejecting overlong encodings and surrogate code points. -/
def utf8DecodeThree (b : Nat) : List Nat → Option (List Char)
  | b1 :: b2 :: rest =>
    if isCont b1 && isCont b2 then
      let n := (b - 0xE0) * 4096 + (b1 - 0x80) * 64 + (b2 - 0x80)
      if n < 0x800 ∨ (0xD800 ≤ n ∧ n < 0xE000) then none
      else (utf8Decode rest).map (Char.ofNat n :: ·)
    else none
  | _ => none

/-- Continue decoding a four-byte UTF-8 sequence with lead byte `b` in
`0xF0..0xF4`, rejecting overlong encodings and code points above
`0x10FFFF`. -/
def utf8DecodeFour (b : Nat) : List Nat → Option (List Char)
  | b1 :: b2 :: b3 :: rest =>
    if isCont b1 && isCont b2 && isCont b3 then
      let n := (b - 0xF0) * 262144 + (b1 - 0x80) * 4096 +
               (b2 - 0x80) * 64 + (b3 - 0x80)
      if n < 0x10000 ∨ 0x110000 ≤ n then none
      else (utf8Decode rest).map (Char.ofNat n :: ·)
    else none
  | _ => none
end

/-- `content.decode('latin-1')` from line 54 of the script: latin-1 maps
every byte `b` to the code point `U+00b` and can never fail, so the result
is always `some`. The `Option` return type mirrors the script's
`try/except UnicodeDecodeError` around the call. -/
def latin1Decode (bs : List Nat) : Option (List Char) :=
  some (bs.map fun b => Char.ofNat b)

/-- Lines 50–57 of the script: decode as UTF-8, falling back to latin-1;
`none` corresponds to the "Skipping (encoding issue)" branch in which both
decodes raised. -/
def decodeFile (content : List Nat) : Option (List Char) :=
  match utf8Decode content with
  | some text => some text
  | none =>
    match latin1Decode content with
    | some text => some text
    | none => none

/-- `normalize_line_endings` from the script, on the file's byte content.
Returns the resulting on-disk bytes together with the function's return
value: `(content, false)` when no write happens, and
`(text.encode('utf-8'), true)` when the normalized text differs from the
decoded text and the file is rewritten. -/
def normalize_line_endings (content : List Nat) : List Nat × Bool :=
  match decodeFile content with
  | none => (content, false)
  | some text =>
    let text' := normalizeText text
    if text' ≠ text then (utf8Encode text', true)
    else (content, false)

/-- `normalize_line_endings` with its fallible I/O made explicit: `readRes`
is the outcome of the `open`/`read` on line 46–47 and `writeRes` the outcome
of the `open`/`write` on line 67–68 (an `Except.error` models a raised
exception). The surrounding `try/except Exception` of lines 44–75 catches
every such exception and returns `False`, so the embedded function is total
and returns `false` on every error path. -/
def normalize_line_endings_io (readRes : Except String (List Nat))
    (writeRes : Except String Unit) : Bool :=
  match readRes with
  | .error _ => false
  | .ok content =>
    match decodeFile content with
    | none => false
    | some text =>
      let text' := normalizeText text
      if text' ≠ text then
        match writeRes with
        | .error _ => false
        | .ok _ => true
      else false

/-- A node of the file-system tree walked by `main`: either a file with
its name and byte content, or a directory with its name and entries. -/
inductive FSNode where
  | file (name : String) (content : List Nat) : FSNode
  | dir (name : String) (entries : List FSNode) : FSNode

/-- A file visited by the walk: the directory components of its path below
the walk root, its name, and its byte content. -/
def Visited : Type := List String × String × List Nat

mutual
/-- One step of `os.walk` with the script's in-place pruning
`dirs[:] = [d for d in dirs if d not in EXCLUDED_DIRS]` (line 97): a
directory entry whose name is in `EXCLUDED_DIRS` is removed from its
parent's listing before it is descended into, so its subtree contributes
no visited files at all. -/
def walkNode : FSNode → List Visited
  | .file n c => [([], n, c)]
  | .dir n es =>
    if n ∈ EXCLUDED_DIRS then []
    else (walkList es).map fun v => (n :: v.1, v.2)

/-- Visit a directory listing in order. -/
def walkList : List FSNode → List Visited
  | [] => []
  | e :: es => walkNode e ++ walkList es
end

/-- `os.walk(start_dir)` restricted to the files it yields: the root
directory itself is always walked (its own name is never tested against
`EXCLUDED_DIRS`); each subdirectory is pruned by name. -/
def walk (rootEntries : List FSNode) : List Visited := walkList rootEntries

/-- The per-file body of `main`'s loop (lines 103–108): if the file is
selected, increment `processed` and run the normalizer, incrementing
`changed` when it reports a write. -/
def runStep (acc : Nat × Nat) (v : Visited) : Nat × Nat :=
  if should_process_file v.2.1.data then
    (acc.1 + 1, acc.2 + (if (normalize_line_endings v.2.2).2 then 1 else 0))
  else acc

/-- The counters `(processed_count, changed_count)` after `main`'s loop has
handled the visited files `vs`, starting from `(0, 0)` (lines 91–92). -/
def runCounters (vs : List Visited) : Nat × Nat := vs.foldl runStep (0, 0)

/-- The counter state after the first `k` files of the run: every
intermediate state of `main`'s loop is of this form. -/
def countersAfter (vs : List Visited) (k : Nat) : Nat × Nat :=
  runCounters (vs.take k)

/-- `main`: `none` models a `start_dir` that does not exist, in which case
the script prints an error and calls `sys.exit(1)` before any traversal
(lines 83–85); otherwise the tree is walked, the counters accumulate, and
the process falls off the end of `main` with exit status `0`. Result:
`(exit code, processed_count, changed_count)`. -/
def mainRun (root : Option (List FSNode)) : Nat × Nat × Nat :=
  match root with
  | none => (1, 0, 0)
  | some entries =>
    let pc := runCounters (walk entries)
    (0, pc.1, pc.2)

/-! ### Measures used to state the specified properties -/

/-- The number of line boundaries of a text, counting each `CRLF` pair as
a single boundary and each remaining lone `CR` or `LF` as one. -/
def countTerm : List Char → Nat
  | '\r' :: '\n' :: rest => countTerm rest + 1
  | '\r' :: rest => countTerm rest + 1
  | '\n' :: rest => countTerm rest + 1
  | _ :: rest => countTerm rest
  | [] => 0

/-! ### Lemmas about `strReplace`, `normalizeText` and `countTerm` -/

theorem strReplace_nil (pat rep : List Char) : strReplace pat rep [] = [] := by
  rw [strReplace]

theorem f1_crlf (rest : List Char) :
    strReplace ['\r', '\n'] ['\n'] ('\r' :: '\n' :: rest)
      = '\n' :: strReplace ['\r', '\n'] ['\n'] rest := by
  rw [strReplace]
  simp [List.isPrefixOf]

theorem f1_not_cr {c : Char} (hc : c ≠ '\r') (rest : List Char) :
    strReplace ['\r', '\n'] ['\n'] (c :: rest)
      = c :: strReplace ['\r', '\n'] ['\n'] rest := by
  rw [strReplace]
  simp [List.isPrefixOf, Ne.symm hc]

theorem f1_cr_not_lf {d : Char} (hd : d ≠ '\n') (rest : List Char) :
    strReplace ['\r', '\n'] ['\n'] ('\r' :: d :: rest)
      = '\r' :: strReplace ['\r', '\n'] ['\n'] (d :: rest) := by
  rw [strReplace]
  simp [List.isPrefixOf, Ne.symm hd]

theorem f1_cr_nil :
    strReplace ['\r', '\n'] ['\n'] ['\r'] = ['\r'] := by
  rw [strReplace]
  simp [List.isPrefixOf, strReplace_nil]

theorem strReplace_cr_eq_map (s : List Char) :
    strReplace ['\r'] ['\n'] s = s.map (fun c => if c = '\r' then '\n' else c) := by
  induction s with
  | nil => rw [strReplace]; rfl
  | cons c rest ih =>
    rw [strReplace]
    by_cases hc : c = '\r'
    · simp [List.isPrefixOf, hc, ih]
    · simp [List.isPrefixOf, hc, Ne.symm hc, ih]

theorem countTerm_crlf (rest : List Char) :
    countTerm ('\r' :: '\n' :: rest) = countTerm rest + 1 := rfl

theorem countTerm_cr {d : Char} (hd : d ≠ '\n') (rest : List Char) :
    countTerm ('\r' :: d :: rest) = countTerm (d :: rest) + 1 := by
  simp [countTerm, hd]

theorem countTerm_lf (rest : List Char) :
    countTerm ('\n' :: rest) = countTerm rest + 1 := rfl

theorem countTerm_other {c : Char} (hc : c ≠ '\r') (hc2 : c ≠ '\n') (rest : List Char) :
    countTerm (c :: rest) = countTerm rest := by
  simp [countTerm, hc, hc2]

/-- The first `replace` pass turns every line boundary of the input into
exactly one `'\r'` or `'\n'` character. -/
theorem count_f1_aux : ∀ (n : Nat) (s : List Char), s.length ≤ n →
    (strReplace ['\r', '\n'] ['\n'] s).count '\r'
      + (strReplace ['\r', '\n'] ['\n'] s).count '\n' = countTerm s := by
  intro n
  induction n with
  | zero =>
    intro s hs
    have : s = [] := List.length_eq_zero.mp (Nat.le_zero.mp hs)
    subst this
    simp [strReplace_nil, countTerm]
  | succ n ih =>
    intro s hs
    match s with
    | [] => simp [strReplace_nil, countTerm]
    | c :: rest =>
      by_cases hc : c = '\r'
      · subst hc
        match rest with
        | [] => simp [f1_cr_nil, countTerm]
        | d :: rest2 =>
          by_cases hd : d = '\n'
          · subst hd
            rw [f1_crlf, countTerm_crlf]
            have := ih rest2 (by simp at hs ⊢; omega)
            simp [List.count_cons]
            omega
          · rw [f1_cr_not_lf hd, countTerm_cr hd]
            have := ih (d :: rest2) (by simp at hs ⊢; omega)
            simp [List.count_cons]
            omega
      · by_cases hc2 : c = '\n'
        · subst hc2
          rw [f1_not_cr hc, countTerm_lf]
          have := ih rest (by simp at hs ⊢; omega)
          simp [List.count_cons]
          omega
        · rw [f1_not_cr hc, countTerm_other hc hc2]
          have := ih rest (by simp at hs ⊢; omega)
          simp [List.count_cons, hc, hc2]
          omega

theorem count_map_repl (t : List Char) :
    (t.map (fun c => if c = '\r' then '\n' else c)).count '\n'
      = t.count '\r' + t.count '\n' := by
  induction t with
  | nil => simp
  | cons c rest ih =>
    by_cases hc : c = '\r'
    · subst hc; simp [List.count_cons, ih]; omega
    · by_cases hc2 : c = '\n'
      · subst hc2; simp [List.count_cons, ih]; omega
      · simp [List.count_cons, hc, hc2, ih]

/-- The normalized text contains no carriage return. -/
theorem noCR_normalizeText (s : List Char) : '\r' ∉ normalizeText s := by
  rw [normalizeText, strReplace_cr_eq_map]
  intro hmem
  rcases List.mem_map.mp hmem with ⟨c, _, hc⟩
  by_cases h : c = '\r' <;> simp [h] at hc

/-- Each line boundary of the input (CRLF, lone CR, or LF) corresponds to
exactly one LF of the normalized output. -/
theorem countLF_normalizeText (s : List Char) :
    (normalizeText s).count '\n' = countTerm s := by
  rw [normalizeText, strReplace_cr_eq_map, count_map_repl]
  exact count_f1_aux s.length s (Nat.le_refl _)

theorem f1_of_noCR {s : List Char} (h : '\r' ∉ s) :
    strReplace ['\r', '\n'] ['\n'] s = s := by
  induction s with
  | nil => exact strReplace_nil _ _
  | cons c rest ih =>
    have hc : c ≠ '\r' := fun hc => h (hc ▸ List.mem_cons_self c rest)
    rw [f1_not_cr hc, ih (fun hm => h (List.mem_cons_of_mem c hm))]

/-- Texts without carriage returns are fixed points of the normalizer. -/
theorem normalizeText_of_noCR {s : List Char} (h : '\r' ∉ s) :
    normalizeText s = s := by
  rw [normalizeText, f1_of_noCR h, strReplace_cr_eq_map]
  induction s with
  | nil => rfl
  | cons c rest ih =>
    have hc : c ≠ '\r' := fun he => h (he ▸ List.mem_cons_self c rest)
    simp only [List.map_cons, if_neg hc, List.cons.injEq, true_and]
    exact ih (fun hm => h (List.mem_cons_of_mem c hm))

theorem normalizeText_idem (s : List Char) :
    normalizeText (normalizeText s) = normalizeText s :=
  normalizeText_of_noCR (noCR_normalizeText s)

/-! ### UTF-8 encode/decode roundtrip -/

theorem utf8Decode_two (n : Nat) (h1 : 0x80 ≤ n) (h2 : n < 0x800) (bs : List Nat) :
    utf8Decode ((0xC0 + n / 64) :: (0x80 + n % 64) :: bs)
      = (utf8Decode bs).map (Char.ofNat n :: ·) := by
  have e1 : ¬ (0xC0 + n / 64 < 0x80) := by omega
  have e2 : ¬ (0xC0 + n / 64 < 0xC2) := by omega
  have e3 : 0xC0 + n / 64 < 0xE0 := by omega
  have e4 : isCont (0x80 + n % 64) = true := by
    simp only [isCont, Bool.and_eq_true, decide_eq_true_eq]; omega
  rw [utf8Decode, if_neg e1, if_neg e2, if_pos e3, utf8DecodeTwo, if_pos e4]
  have : (0xC0 + n / 64 - 0xC0) * 64 + (0x80 + n % 64 - 0x80) = n := by omega
  rw [this]

theorem utf8Decode_one (n : Nat) (h : n < 0x80) (bs : List Nat) :
    utf8Decode (n :: bs) = (utf8Decode bs).map (Char.ofNat n :: ·) := by
  rw [utf8Decode, if_pos h]

theorem utf8Decode_three (n : Nat) (h1 : 0x800 ≤ n) (h2 : n < 0x10000)
    (h3 : ¬ (0xD800 ≤ n ∧ n < 0xE000)) (bs : List Nat) :
    utf8Decode ((0xE0 + n / 4096) :: (0x80 + (n / 64) % 64) :: (0x80 + n % 64) :: bs)
      = (utf8Decode bs).map (Char.ofNat n :: ·) := by
  have e1 : ¬ (0xE0 + n / 4096 < 0x80) := by omega
  have e2 : ¬ (0xE0 + n / 4096 < 0xC2) := by omega
  have e3 : ¬ (0xE0 + n / 4096 < 0xE0) := by omega
  have e4 : 0xE0 + n / 4096 < 0xF0 := by omega
  have e5 : (isCont (0x80 + (n / 64) % 64) && isCont (0x80 + n % 64)) = true := by
    simp only [isCont, Bool.and_eq_true, decide_eq_true_eq]; omega
  rw [utf8Decode, if_neg e1, if_neg e2, if_neg e3, if_pos e4, utf8DecodeThree, if_pos e5]
  have hv : (0xE0 + n / 4096 - 0xE0) * 4096 + (0x80 + (n / 64) % 64 - 0x80) * 64
      + (0x80 + n % 64 - 0x80) = n := by omega
  rw [hv, if_neg (by omega)]

theorem utf8Decode_four (n : Nat) (h1 : 0x10000 ≤ n) (h2 : n < 0x110000) (bs : List Nat) :
    utf8Decode ((0xF0 + n / 262144) :: (0x80 + (n / 4096) % 64)
        :: (0x80 + (n / 64) % 64) :: (0x80 + n % 64) :: bs)
      = (utf8Decode bs).map (Char.ofNat n :: ·) := by
  have e1 : ¬ (0xF0 + n / 262144 < 0x80) := by omega
  have e2 : ¬ (0xF0 + n / 262144 < 0xC2) := by omega
  have e3 : ¬ (0xF0 + n / 262144 < 0xE0) := by omega
  have e4 : ¬ (0xF0 + n / 262144 < 0xF0) := by omega
  have e5 : 0xF0 + n / 262144 < 0xF5 := by omega
  have e6 : (isCont (0x80 + (n / 4096) % 64) && isCont (0x80 + (n / 64) % 64)
      && isCont (0x80 + n % 64)) = true := by
    simp only [isCont, Bool.and_eq_true, decide_eq_true_eq]; omega
  rw [utf8Decode, if_neg e1, if_neg e2, if_neg e3, if_neg e4, if_pos e5,
    utf8DecodeFour, if_pos e6]
  have hv : (0xF0 + n / 262144 - 0xF0) * 262144 + (0x80 + (n / 4096) % 64 - 0x80) * 4096
      + (0x80 + (n / 64) % 64 - 0x80) * 64 + (0x80 + n % 64 - 0x80) = n := by omega
  rw [hv, if_neg (by omega)]

theorem utf8Decode_encodeChar_append (c : Char) (bs : List Nat) :
    utf8Decode (utf8EncodeChar c ++ bs) = (utf8Decode bs).map (c :: ·) := by
  have hvalid : Nat.isValidChar c.toNat := c.valid
  rcases Nat.lt_or_ge c.toNat 0x80 with h80 | h80
  · have henc : utf8EncodeChar c = [c.toNat] := by
      rw [utf8EncodeChar, if_pos h80]
    rw [henc, List.cons_append, List.nil_append, utf8Decode_one c.toNat h80,
      Char.ofNat_toNat]
  · have k1 : ¬ (c.toNat < 0x80) := by omega
    rcases Nat.lt_or_ge c.toNat 0x800 with h800 | h800
    · have henc : utf8EncodeChar c = [0xC0 + c.toNat / 64, 0x80 + c.toNat % 64] := by
        rw [utf8EncodeChar, if_neg k1, if_pos h800]
      rw [henc]
      rw [show ([0xC0 + c.toNat / 64, 0x80 + c.toNat % 64] : List Nat) ++ bs
        = (0xC0 + c.toNat / 64) :: (0x80 + c.toNat % 64) :: bs from rfl]
      rw [utf8Decode_two c.toNat h80 h800, Char.ofNat_toNat]
    · have k2 : ¬ (c.toNat < 0x800) := by omega
      rcases Nat.lt_or_ge c.toNat 0x10000 with h64k | h64k
      · have hsur : ¬ (0xD800 ≤ c.toNat ∧ c.toNat < 0xE000) := by
          rcases hvalid with h | ⟨h1, h2⟩ <;> omega
        have henc : utf8EncodeChar c = [0xE0 + c.toNat / 4096,
            0x80 + (c.toNat / 64) % 64, 0x80 + c.toNat % 64] := by
          rw [utf8EncodeChar, if_neg k1, if_neg k2, if_pos h64k]
        rw [henc]
        rw [show ([0xE0 + c.toNat / 4096, 0x80 + (c.toNat / 64) % 64,
            0x80 + c.toNat % 64] : List Nat) ++ bs
          = (0xE0 + c.toNat / 4096) :: (0x80 + (c.toNat / 64) % 64)
            :: (0x80 + c.toNat % 64) :: bs from rfl]
        rw [utf8Decode_three c.toNat h800 h64k hsur, Char.ofNat_toNat]
      · have k3 : ¬ (c.toNat < 0x10000) := by omega
        have hmax : c.toNat < 0x110000 := by
          rcases hvalid with h | ⟨h1, h2⟩ <;> omega
        have henc : utf8EncodeChar c = [0xF0 + c.toNat / 262144,
            0x80 + (c.toNat / 4096) % 64, 0x80 + (c.toNat / 64) % 64,
            0x80 + c.toNat % 64] := by
          rw [utf8EncodeChar, if_neg k1, if_neg k2, if_neg k3]
        rw [henc]
        rw [show ([0xF0 + c.toNat / 262144, 0x80 + (c.toNat / 4096) % 64,
            0x80 + (c.toNat / 64) % 64, 0x80 + c.toNat % 64] : List Nat) ++ bs
          = (0xF0 + c.toNat / 262144) :: (0x80 + (c.toNat / 4096) % 64)
            :: (0x80 + (c.toNat / 64) % 64) :: (0x80 + c.toNat % 64) :: bs from rfl]
        rw [utf8Decode_four c.toNat h64k hmax, Char.ofNat_toNat]

theorem utf8Decode_utf8Encode (s : List Char) :
    utf8Decode (utf8Encode s) = some s := by
  induction s with
  | nil => rfl
  | cons c rest ih =>
    show utf8Decode (utf8EncodeChar c ++ utf8Encode rest) = some (c :: rest)
    rw [utf8Decode_encodeChar_append, ih]
    rfl

/-! ### Lemmas about decoding and `normalize_line_endings` -/

theorem decodeFile_eq_utf8 {content : List Nat} {t : List Char}
    (h : utf8Decode content = some t) : decodeFile content = some t := by
  rw [decodeFile, h]

theorem decodeFile_eq_latin1 {content : List Nat}
    (h : utf8Decode content = none) :
    decodeFile content = some (content.map fun b => Char.ofNat b) := by
  rw [decodeFile, h, latin1Decode]

theorem decodeFile_isSome (content : List Nat) :
    (decodeFile content).isSome = true := by
  cases h : utf8Decode content with
  | some t => rw [decodeFile_eq_utf8 h]; rfl
  | none => rw [decodeFile_eq_latin1 h]; rfl

theorem norm_unchanged {content : List Nat} {text : List Char}
    (h : decodeFile content = some text) (hfix : normalizeText text = text) :
    normalize_line_endings content = (content, false) := by
  rw [normalize_line_endings, h]
  simp [hfix]

theorem norm_changed {content : List Nat} {text : List Char}
    (h : decodeFile content = some text) (hne : normalizeText text ≠ text) :
    normalize_line_endings content = (utf8Encode (normalizeText text), true) := by
  rw [normalize_line_endings, h]
  simp [hne]

theorem norm_of_noCR {content : List Nat} {text : List Char}
    (h : decodeFile content = some text) (hcr : '\r' ∉ text) :
    normalize_line_endings content = (content, false) :=
  norm_unchanged h (normalizeText_of_noCR hcr)

/-- Running the normalizer on the bytes a first run left on disk writes
nothing and returns `False`. -/
theorem norm_second_run (content : List Nat) :
    normalize_line_endings (normalize_line_endings content).1
      = ((normalize_line_endings content).1, false) := by
  cases h : decodeFile content with
  | none =>
    have h1 : normalize_line_endings content = (content, false) := by
      rw [normalize_line_endings, h]
    rw [h1, h1]
  | some text =>
    by_cases hfix : normalizeText text = text
    · rw [norm_unchanged h hfix, norm_unchanged h hfix]
    · rw [norm_changed h hfix]
      have hdec2 : decodeFile (utf8Encode (normalizeText text))
          = some (normalizeText text) :=
        decodeFile_eq_utf8 (utf8Decode_utf8Encode _)
      exact norm_unchanged hdec2 (normalizeText_idem text)

/-! ### Lemmas about the walker and the counters -/

mutual
/-- Files yielded from a single tree node never lie under an excluded
directory. -/
theorem walkNode_no_excluded : ∀ (e : FSNode) (v : Visited), v ∈ walkNode e →
    ∀ d ∈ v.1, d ∉ EXCLUDED_DIRS
  | .file n c, v, hv => by
    rw [walkNode] at hv
    rcases List.mem_singleton.mp hv with rfl
    intro d hd
    simp at hd
  | .dir n es, v, hv => by
    rw [walkNode] at hv
    by_cases hn : n ∈ EXCLUDED_DIRS
    · rw [if_pos hn] at hv
      simp at hv
    · rw [if_neg hn] at hv
      rcases List.mem_map.mp hv with ⟨w, hw, rfl⟩
      intro d hd
      rcases List.mem_cons.mp hd with rfl | hd
      · exact hn
      · exact walkList_no_excluded es w hw d hd

theorem walkList_no_excluded : ∀ (es : List FSNode) (v : Visited), v ∈ walkList es →
    ∀ d ∈ v.1, d ∉ EXCLUDED_DIRS
  | [], v, hv => by rw [walkList] at hv; simp at hv
  | e :: es, v, hv => by
    rw [walkList] at hv
    rcases List.mem_append.mp hv with h | h
    · exact walkNode_no_excluded e v h
    · exact walkList_no_excluded es v h
end

theorem runStep_inv {acc : Nat × Nat} (h : acc.2 ≤ acc.1) (v : Visited) :
    (runStep acc v).2 ≤ (runStep acc v).1 := by
  rw [runStep]
  split
  · split <;> simp <;> omega
  · exact h

theorem runStep_mono (acc : Nat × Nat) (v : Visited) :
    acc.1 ≤ (runStep acc v).1 ∧ acc.2 ≤ (runStep acc v).2 := by
  rw [runStep]
  split
  · constructor <;> simp
  · exact ⟨Nat.le_refl _, Nat.le_refl _⟩

theorem foldl_runStep_inv : ∀ (vs : List Visited) (acc : Nat × Nat),
    acc.2 ≤ acc.1 → (vs.foldl runStep acc).2 ≤ (vs.foldl runStep acc).1
  | [], acc, h => h
  | v :: vs, acc, h => by
    rw [List.foldl_cons]
    exact foldl_runStep_inv vs _ (runStep_inv h v)

theorem countersAfter_inv (vs : List Visited) (k : Nat) :
    (countersAfter vs k).2 ≤ (countersAfter vs k).1 :=
  foldl_runStep_inv _ _ (Nat.le_refl 0)

theorem countersAfter_succ_mono (vs : List Visited) (k : Nat) :
    (countersAfter vs k).1 ≤ (countersAfter vs (k + 1)).1
      ∧ (countersAfter vs k).2 ≤ (countersAfter vs (k + 1)).2 := by
  rw [countersAfter, countersAfter, runCounters, runCounters, List.take_succ,
    List.foldl_append]
  cases h : vs[k]? with
  | none => simp
  | some v =>
    simp only [Option.toList_some, List.foldl_cons, List.foldl_nil]
    exact runStep_mono _ v

/-- `Char.ofNat` of a valid code point has that code point as its value. -/
theorem toNat_ofNat_of_valid {n : Nat} (h : Nat.isValidChar n) :
    (Char.ofNat n).toNat = n := by
  simp only [Char.ofNat, dif_pos h]
  rfl

theorem foldl_changed_const : ∀ (vs : List Visited) (acc : Nat × Nat),
    (∀ v ∈ vs, (normalize_line_endings v.2.2).2 = false) →
    (vs.foldl runStep acc).2 = acc.2
  | [], _, _ => rfl
  | v :: vs, acc, h => by
    rw [List.foldl_cons]
    have hrest := fun w hw => h w (List.mem_cons_of_mem v hw)
    rw [foldl_changed_const vs _ hrest]
    rw [runStep]
    split
    · rw [h v (List.mem_cons_self v vs)]
      rfl
    · rfl

/-- The visited-file list of the tree as the first run left it: same paths
and names, contents replaced by the bytes the first run wrote (or left). -/
def afterFirstRun (vs : List Visited) : List Visited :=
  vs.map fun v => (v.1, v.2.1, (normalize_line_endings v.2.2).1)

/-! ### The specified properties -/

/-- C1: normalization replaces every CRLF, then every remaining lone CR,
with LF; the result contains no CR and has exactly one LF per line boundary
of the input; on the bytes `b"a\r\nb\rc\n"` the file is rewritten to
`b"a\nb\nc\n"` and the function reports a change. -/
theorem C1_no_CR_and_line_boundaries_preserved :
    (∀ s : List Char,
      '\r' ∉ normalizeText s ∧ (normalizeText s).count '\n' = countTerm s)
    ∧ normalize_line_endings [97, 13, 10, 98, 13, 99, 10]
        = ([97, 10, 98, 10, 99, 10], true) := by
  refine ⟨fun s => ⟨noCR_normalizeText s, countLF_normalizeText s⟩, ?_⟩
  have hdec : decodeFile [97, 13, 10, 98, 13, 99, 10]
      = some "a\r\nb\rc\n".data := rfl
  have hnorm : normalizeText "a\r\nb\rc\n".data = "a\nb\nc\n".data := by
    simp [normalizeText, strReplace, List.isPrefixOf]
  have hne : normalizeText "a\r\nb\rc\n".data ≠ "a\r\nb\rc\n".data := by
    rw [hnorm]; decide
  rw [norm_changed hdec hne, hnorm]
  rfl

/-- C2: normalization is idempotent: a second run on the bytes the first
run left on disk performs no write, leaves the bytes unchanged, and returns
`False`; over a whole tree, the second run counts `changed = 0`. -/
theorem C2_idempotent :
    (∀ content : List Nat,
      normalize_line_endings (normalize_line_endings content).1
        = ((normalize_line_endings content).1, false))
    ∧ ∀ vs : List Visited, (runCounters (afterFirstRun vs)).2 = 0 := by
  refine ⟨norm_second_run, fun vs => ?_⟩
  apply foldl_changed_const
  intro v hv
  rcases List.mem_map.mp hv with ⟨w, _, rfl⟩
  exact congrArg Prod.snd (norm_second_run w.2.2)

/-- C3: `should_process_file` selects a file exactly when its lowercased
extension is in `EXTENSIONS`, or it has no extension, starts with a dot,
and is one of the allow-listed dotfiles; `.env` is selected and
`.env.local` is not. -/
theorem C3_should_process_file_characterization :
    (∀ name : List Char,
      should_process_file name = true ↔
        ((suffix name).map Char.toLower ∈ EXTENSIONS
          ∨ (suffix name = [] ∧ ['.'].isPrefixOf name ∧ name ∈ DOTFILE_NAMES)))
    ∧ should_process_file ".env".data = true
    ∧ should_process_file ".env.local".data = false := by
  refine ⟨fun name => ?_, by decide, by decide⟩
  rw [should_process_file]
  by_cases h1 : (suffix name).map Char.toLower ∈ EXTENSIONS
  · simp [h1]
  · by_cases h2 : suffix name = [] ∧ ['.'].isPrefixOf name
    · simp [h1, h2]
    · simp [h1, h2]
      tauto

/-- C4: no file under a directory (strictly below the walk root) whose name
is in `EXCLUDED_DIRS` is ever visited: the walker prunes such subtrees
entirely, so such files are never selected, normalized, or counted. -/
theorem C4_excluded_dirs_pruned :
    ∀ (rootEntries : List FSNode) (v : Visited), v ∈ walk rootEntries →
      ∀ d ∈ v.1, d ∉ EXCLUDED_DIRS :=
  fun _ v hv => walkList_no_excluded _ v hv

/-- Witness for C4 at a concrete tree: the file `src/a.js` is visited and
its path avoids every excluded directory name. -/
theorem C4_excluded_dirs_pruned_witness : "src" ∉ EXCLUDED_DIRS :=
  C4_excluded_dirs_pruned
    [.dir "src" [.file "a.js" [13, 10]], .dir "node_modules" [.file "b.js" [13]]]
    (["src"], "a.js", [13, 10])
    (by simp [walk, walkList, walkNode, EXCLUDED_DIRS])
    "src" (List.mem_singleton.mpr rfl)

/-- C5: a file whose decoded text contains no CR is left byte-for-byte
unchanged (no write happens) and the function returns `False`. -/
theorem C5_lf_only_files_untouched :
    ∀ (content : List Nat) (text : List Char),
      decodeFile content = some text → '\r' ∉ text →
      normalize_line_endings content = (content, false) :=
  fun _ _ h hcr => norm_of_noCR h hcr

/-- Witness for C5: the LF-only file `b"a\n"` is decoded to `"a\n"`,
contains no CR, and is left unchanged with result `False`. -/
theorem C5_lf_only_files_untouched_witness :
    decodeFile [97, 10] = some ['a', '\n']
      ∧ '\r' ∉ (['a', '\n'] : List Char)
      ∧ normalize_line_endings [97, 10] = ([97, 10], false) :=
  ⟨rfl, by decide, C5_lf_only_files_untouched [97, 10] ['a', '\n'] rfl (by decide)⟩

/-- C6: bytes that are not valid UTF-8 are decoded with latin-1 and, when a
rewrite occurs, written back UTF-8-encoded, so every byte `>= 0x80` becomes
a two-byte sequence and the rewritten file can be longer than the original:
`b"\xff\r"` (2 bytes) is rewritten to `b"\xc3\xbf\n"` (3 bytes). -/
theorem C6_latin1_fallback_reencodes_as_utf8 :
    (∀ content : List Nat, utf8Decode content = none →
      decodeFile content = some (content.map fun b => Char.ofNat b))
    ∧ (∀ b : Nat, 0x80 ≤ b → b < 0x100 →
      utf8EncodeChar (Char.ofNat b) = [0xC0 + b / 64, 0x80 + b % 64])
    ∧ normalize_line_endings [0xFF, 0x0D] = ([0xC3, 0xBF, 0x0A], true)
    ∧ ([0xC3, 0xBF, 0x0A] : List Nat).length > ([0xFF, 0x0D] : List Nat).length := by
  refine ⟨fun content h => decodeFile_eq_latin1 h, fun b h1 h2 => ?_, ?_, by decide⟩
  · have hval : Nat.isValidChar b := Or.inl (by omega)
    have htn : (Char.ofNat b).toNat = b := toNat_ofNat_of_valid hval
    rw [utf8EncodeChar]
    rw [htn, if_neg (by omega), if_pos (by omega)]
  · have hdec : decodeFile [0xFF, 0x0D] = some ['\u00FF', '\r'] := rfl
    have hnorm : normalizeText ['\u00FF', '\r'] = ['\u00FF', '\n'] := by
      simp [normalizeText, strReplace, List.isPrefixOf]
    have hne : normalizeText ['\u00FF', '\r'] ≠ ['\u00FF', '\r'] := by
      rw [hnorm]; decide
    rw [norm_changed hdec hne, hnorm]
    rfl

/-- Witness for C6: `b"\xff"` is invalid UTF-8 and decodes via latin-1 to
`"\u00ff"`; the byte `0xFF` re-encodes to the two bytes `0xC3 0xBF`. -/
theorem C6_latin1_fallback_reencodes_as_utf8_witness :
    decodeFile [0xFF] = some ['\u00FF']
      ∧ utf8EncodeChar (Char.ofNat 0xFF) = [0xC3, 0xBF] := by
  constructor
  · have h : utf8Decode [0xFF] = none := rfl
    have := C6_latin1_fallback_reencodes_as_utf8.1 [0xFF] h
    rw [this]
    rfl
  · have := C6_latin1_fallback_reencodes_as_utf8.2.1 0xFF (by decide) (by decide)
    rw [this]

/-- C7: the process exits nonzero exactly when the root does not exist, and
then no traversal happens (both counters are zero); when the root exists the
exit status is zero. -/
theorem C7_exit_status :
    (∀ entries : List FSNode, (mainRun (some entries)).1 = 0)
    ∧ mainRun none = (1, 0, 0) :=
  ⟨fun _ => rfl, rfl⟩

/-- C8: every exception raised while reading, decoding, or writing inside
`normalize_line_endings` is caught and the function returns `False` (the
embedded function is total, so the surrounding run continues). -/
theorem C8_exceptions_caught :
    (∀ (e : String) (w : Except String Unit),
      normalize_line_endings_io (.error e) w = false)
    ∧ ∀ (content : List Nat) (e : String),
      normalize_line_endings_io (.ok content) (.error e) = false := by
  refine ⟨fun _ _ => rfl, fun content e => ?_⟩
  rw [normalize_line_endings_io]
  cases h : decodeFile content with
  | none => rfl
  | some text =>
    by_cases hne : normalizeText text ≠ text
    · simp [hne]
    · simp [hne]

/-- C9: the counters start at `(0, 0)`, are monotone step by step, and
satisfy `changed ≤ processed` at every point of the run. -/
theorem C9_counter_invariant :
    ∀ (vs : List Visited) (k : Nat),
      countersAfter vs 0 = (0, 0)
      ∧ (countersAfter vs k).2 ≤ (countersAfter vs k).1
      ∧ (countersAfter vs k).1 ≤ (countersAfter vs (k + 1)).1
      ∧ (countersAfter vs k).2 ≤ (countersAfter vs (k + 1)).2 :=
  fun vs k =>
    ⟨rfl, countersAfter_inv vs k, (countersAfter_succ_mono vs k).1,
      (countersAfter_succ_mono vs k).2⟩

/-- C10: the double-decode-failure branch is unreachable: the latin-1
fallback decodes every byte sequence, so `decodeFile` always succeeds. -/
theorem C10_double_decode_failure_unreachable :
    ∀ content : List Nat, (decodeFile content).isSome = true :=
  decodeFile_isSome

end NormalizeLineEndings
